import Mathlib

/-!
Verification of the matching-and-reconciliation core of `kodi2plex.py`.

Text is modelled as a list of Unicode code points (`List Nat`), which keeps
every character-level operation (lowercasing, character classes, regex-like
rewrites) as plain natural-number arithmetic.  Each definition below is a
shallow embedding of the corresponding Python function; comments name the
source lines.  Character classes model the ASCII behaviour of Python's
`str.lower`, `\s`, `\w` and `\d`.
-/

/-- Strings as lists of code points. -/
abbrev Str := List Nat

/-- Turn a Lean string literal into its code-point list (used only to state
concrete examples). -/
def str (s : String) : Str := s.data.map Char.toNat

/-- Python `\s` (ASCII): space, tab, newline, vertical tab, form feed,
carriage return. -/
def isSpace (c : Nat) : Bool :=
  c == 32 || c == 9 || c == 10 || c == 11 || c == 12 || c == 13

/-- Python `\d` (ASCII): `'0'..'9'`. -/
def isDigit (c : Nat) : Bool := 48 ≤ c && c ≤ 57

/-- ASCII alphanumeric. -/
def isAlnum (c : Nat) : Bool :=
  (97 ≤ c && c ≤ 122) || (65 ≤ c && c ≤ 90) || isDigit c

/-- Python `\w` (ASCII): alphanumeric or underscore. -/
def isWordChar (c : Nat) : Bool := isAlnum c || c == 95

/-- Characters kept by `re.sub(r"[^\w\s]", "", t)` in `normalize_title`. -/
def keepChar (c : Nat) : Bool := isWordChar c || isSpace c

/-- Python `str.lower` on ASCII: map `'A'..'Z'` to `'a'..'z'`. -/
def pyLower (c : Nat) : Nat := if 65 ≤ c ∧ c ≤ 90 then c + 32 else c

/-- Remove trailing whitespace. -/
def dropTrailingWs (s : Str) : Str := (s.reverse.dropWhile isSpace).reverse

/-- Python `str.strip`: remove leading and trailing whitespace. -/
def stripEnds (s : Str) : Str := dropTrailingWs (s.dropWhile isSpace)

/-- `t.replace("&amp;", "and")` — left-to-right, non-overlapping
(`&` = 38, `a` = 97, `m` = 109, `p` = 112, `;` = 59, `n` = 110, `d` = 100). -/
def replaceAmpEnt : Str → Str
  | 38 :: 97 :: 109 :: 112 :: 59 :: rest => 97 :: 110 :: 100 :: replaceAmpEnt rest
  | c :: rest => c :: replaceAmpEnt rest
  | [] => []

/-- `t.replace("&", "and")`. -/
def replaceAmp : Str → Str
  | 38 :: rest => 97 :: 110 :: 100 :: replaceAmp rest
  | c :: rest => c :: replaceAmp rest
  | [] => []

/-- `re.sub(r"^(the|a|an)\s+", "", t)`: strip one leading article together
with the whole whitespace run after it (`t` = 116, `h` = 104, `e` = 101,
`a` = 97, `n` = 110).  The `an` case must be tried before `a`, mirroring the
fact that the regex alternative `a` only matches when the next character is
whitespace. -/
def stripArticle (s : Str) : Str :=
  match s with
  | 116 :: 104 :: 101 :: c :: rest =>
    if isSpace c then rest.dropWhile isSpace else s
  | 97 :: 110 :: c :: rest =>
    if isSpace c then rest.dropWhile isSpace else s
  | 97 :: c :: rest =>
    if isSpace c then rest.dropWhile isSpace else s
  | _ => s

/-- `re.sub(r"\s*\(\d{4}\)\s*$", "", t)`: strip a trailing parenthesised
4-digit year and the whitespace around it, anchored at the end
(`(` = 40, `)` = 41). -/
def stripYear (s : Str) : Str :=
  match (dropTrailingWs s).reverse with
  | 41 :: d1 :: d2 :: d3 :: d4 :: 40 :: rest =>
    if isDigit d1 && isDigit d2 && isDigit d3 && isDigit d4 then
      (rest.dropWhile isSpace).reverse
    else s
  | _ => s

/-- One step of word splitting, processing characters right to left.  The
head of the accumulator is the word currently being built (possibly empty). -/
def splitAux (c : Nat) (acc : List Str) : List Str :=
  if isSpace c then [] :: acc
  else
    match acc with
    | [] => [[c]]
    | w :: ws => (c :: w) :: ws

/-- Maximal whitespace-separated words of a string (Python `str.split`). -/
def splitWs (s : Str) : List Str :=
  (s.foldr splitAux []).filter (fun w => !w.isEmpty)

/-- Join words with single spaces. -/
def joinWords : List Str → Str
  | [] => []
  | [w] => w
  | w :: ws => w ++ 32 :: joinWords ws

/-- `re.sub(r"\s+", " ", t).strip()`: collapse whitespace runs and trim. -/
def collapseWs (s : Str) : Str := joinWords (splitWs s)

/-- `normalize_title` (kodi2plex.py lines 136–153): lowercase and strip,
replace ampersands with "and", strip one leading article, strip a trailing
parenthesised year, drop punctuation, collapse whitespace. -/
def normalize_title (s : Str) : Str :=
  collapseWs (List.filter keepChar
    (stripYear (stripArticle (replaceAmp (replaceAmpEnt (stripEnds (s.map pyLower)))))))

/-!
## The fuzzy scorers

`thefuzz` (backed by `rapidfuzz`) scores two strings by normalised indel
similarity: `100 * 2 * lcs(a, b) / (|a| + |b|)`, rounded half-to-even
(Python's `round`).  `token_sort_ratio` first applies the default processor
(lowercase, replace non-alphanumeric characters by spaces, trim) to each
string, sorts its whitespace-split tokens, and joins them with single
spaces.  `partial_ratio` returns the best `ratio` between the shorter
string and a same-length window of the longer one (the optimal alignment
of the shorter string inside the longer). -/

/-- Round `num / den` to the nearest integer, ties to even (Python `round`). -/
def roundHalfEven (num den : Nat) : Nat :=
  let q := num / den
  let r := num % den
  if 2 * r < den then q
  else if den < 2 * r then q + 1
  else if q % 2 = 0 then q else q + 1

/-- Force a natural number to a literal before continuing: `seqNat n f`
equals `f n`, but evaluation computes `n` once instead of re-evaluating a
shared thunk (keeps the LCS dynamic program polynomial under kernel
reduction). -/
def seqNat (n : Nat) (f : Nat → List Nat) : List Nat :=
  match n with
  | 0 => f 0
  | m + 1 => f (m + 1)

/-- One cell-by-cell step of the LCS dynamic program: extend the previous
row `p :: ps` over the second string `bs`, given the diagonal and left
neighbours. -/
def lcsRowGo (c : Nat) : Str → List Nat → Nat → Nat → List Nat
  | [], _, _, _ => []
  | _, [], _, _ => []
  | b :: bs, p :: ps, diag, left =>
    seqNat (if c = b then diag + 1 else max left p)
      (fun v => v :: lcsRowGo c bs ps p v)

/-- Next full LCS row for character `c` against `bs`. -/
def lcsRow (c : Nat) (bs : Str) (prev : List Nat) : List Nat :=
  match prev with
  | [] => []
  | p :: ps => p :: lcsRowGo c bs ps p p

/-- Length of a longest common subsequence (dynamic programming). -/
def lcsLen (a b : Str) : Nat :=
  (a.foldl (fun row c => lcsRow c b row) (List.replicate (b.length + 1) 0)).getLastD 0

/-- `fuzz.ratio`: normalised indel similarity in percent, rounded half to
even; two empty strings score 100. -/
def fuzzRatio (a b : Str) : Nat :=
  let n := a.length + b.length
  if n = 0 then 100 else roundHalfEven (200 * lcsLen a b) n

/-- Lexicographic comparison of code-point strings (Python `str` order). -/
def lexLe : Str → Str → Bool
  | [], _ => true
  | _ :: _, [] => false
  | a :: as, b :: bs => if a < b then true else if b < a then false else lexLe as bs

/-- `lexLe` as a relation, for use with `List.insertionSort`. -/
def lexR (a b : Str) : Prop := lexLe a b = true

instance : DecidableRel lexR := fun a b => inferInstanceAs (Decidable (lexLe a b = true))

/-- `rapidfuzz.utils.default_process`: lowercase, replace non-alphanumeric
characters with spaces, trim. -/
def default_process (s : Str) : Str :=
  stripEnds ((s.map pyLower).map (fun c => if isAlnum c then c else 32))

/-- Sort the whitespace-split tokens and join them with single spaces. -/
def sortTokens (s : Str) : Str := joinWords (List.insertionSort lexR (splitWs s))

/-- `fuzz.token_sort_ratio`: ratio of the token-sorted processed strings. -/
def tokenSortRatio (a b : Str) : Nat :=
  fuzzRatio (sortTokens (default_process a)) (sortTokens (default_process b))

/-- `fuzz.partial_ratio`: best ratio of the shorter string against any
window of the longer one of the shorter string's length. -/
def windowRatio (a b : Str) : Nat :=
  let s := if a.length ≤ b.length then a else b
  let l := if a.length ≤ b.length then b else a
  ((List.range (l.length - s.length + 1)).map
    (fun i => fuzzRatio s ((l.drop i).take s.length))).foldl max 0

/-!
## The matcher (`find_best_match`, kodi2plex.py lines 197–257)
-/

/-- A Plex show: a stable identity (`ratingKey`) and a display title. -/
structure Candidate where
  ratingKey : Nat
  title : Str
deriving DecidableEq

/-- Result of matching one playlist title against the Plex library. -/
structure MatchResult where
  playlist_title : Str
  plex_show : Option Candidate := none
  plex_title : Option Str := none
  score : Nat := 0
  matched : Bool := false
deriving DecidableEq

/-- The guarded `partial_ratio` contribution: only used when both
normalized strings are non-empty and their lengths are within a factor of
two (the Python float test `max/min <= 2.0` on positive integers is exactly
`max ≤ 2 * min`); otherwise 0. -/
def substScore (np nc : Str) : Nat :=
  if 0 < np.length ∧ 0 < nc.length ∧
      max np.length nc.length ≤ 2 * min np.length nc.length then
    windowRatio np nc
  else 0

/-- The combined score of one comparison: the maximum of the basic ratio,
the token-sort ratio and the guarded window ratio. -/
def combined (np nc : Str) : Nat :=
  max (fuzzRatio np nc) (max (tokenSortRatio np nc) (substScore np nc))

/-- The candidate scan of `find_best_match`: track
`(best_score, best_ratio, best_show)`, replacing the best entry exactly
when the Python tuple compare `(score, ratio_score) > (best_score,
best_ratio)` holds. -/
def bestFold (np : Str) : List Candidate → Nat × Nat × Option Candidate →
    Nat × Nat × Option Candidate
  | [], acc => acc
  | c :: rest, acc =>
    if acc.1 < combined np (normalize_title c.title) ∨
        (acc.1 = combined np (normalize_title c.title) ∧
          acc.2.1 < fuzzRatio np (normalize_title c.title)) then
      bestFold np rest
        (combined np (normalize_title c.title), fuzzRatio np (normalize_title c.title), some c)
    else bestFold np rest acc

/-- `find_best_match`: scan all candidates, then accept only when the best
combined score reaches the threshold, the best basic ratio reaches the
fixed guard rail 70, and a best show exists. -/
def find_best_match (pt : Str) (shows : List Candidate) (threshold : Nat) : MatchResult :=
  match bestFold (normalize_title pt) shows (0, 0, none) with
  | (bs, br, some sh) =>
    if threshold ≤ bs ∧ 70 ≤ br then
      { playlist_title := pt, plex_show := some sh, plex_title := some sh.title,
        score := bs, matched := true }
    else { playlist_title := pt, score := bs }
  | (bs, _, none) => { playlist_title := pt, score := bs }

/-!
## The reconciler (`sync_as_collection`, kodi2plex.py lines 276–335)

Python uses sets of `ratingKey`s only for membership tests; membership on
the underlying key lists is an exact model.  `r.plex_show.ratingKey` is
embedded as `resultKey`; a result without a show (never produced for
matched results) defaults to key 0.
-/

/-- Membership of a key in a list of keys (`in` on the Python sets). -/
def elemKey (k : Nat) (l : List Nat) : Bool := decide (k ∈ l)

/-- `current_ids`: the rating keys of the live snapshot. -/
def currentIds (cur : List Candidate) : List Nat := cur.map Candidate.ratingKey

/-- `r.plex_show.ratingKey` for a match result. -/
def resultKey (r : MatchResult) : Nat :=
  match r.plex_show with
  | some c => c.ratingKey
  | none => 0

/-- `desired_ids`: the rating keys of the matched shows. -/
def desiredIds (matched : List MatchResult) : List Nat := matched.map resultKey

/-- `to_add`: matched results whose key is not in the live snapshot. -/
def to_add (matched : List MatchResult) (cur : List Candidate) : List MatchResult :=
  matched.filter (fun r => !elemKey (resultKey r) (currentIds cur))

/-- `to_remove`: live shows whose key is not desired. -/
def to_remove (matched : List MatchResult) (cur : List Candidate) : List Candidate :=
  cur.filter (fun s => !elemKey s.ratingKey (desiredIds matched))

/-- `already`: matched results whose key is already in the live snapshot. -/
def already_synced (matched : List MatchResult) (cur : List Candidate) : List MatchResult :=
  matched.filter (fun r => elemKey (resultKey r) (currentIds cur))

/-- The live shows kept by a run: the complement of `to_remove`. -/
def keptLive (matched : List MatchResult) (cur : List Candidate) : List Candidate :=
  cur.filter (fun s => elemKey s.ratingKey (desiredIds matched))

/-- The live snapshot after applying a (non-dry) run: removed shows are
gone and each added result's show is now a member. -/
def applyRun (matched : List MatchResult) (cur : List Candidate) : List Candidate :=
  keptLive matched cur ++ (to_add matched cur).filterMap MatchResult.plex_show

/-- A mutating collaborator call, by show key and target name. -/
inductive Mutation where
  | addCollection (key : Nat) (target : Str)
  | removeCollection (key : Nat) (target : Str)
  | createPlaylist (target : Str) (keys : List Nat)
  | addItems (target : Str) (keys : List Nat)
  | removeItems (target : Str) (keys : List Nat)
deriving DecidableEq

/-- `sync_as_collection`: returns the `(added, removed, already)` title
lists together with the trace of mutating collaborator calls (one
`addCollection`/`removeCollection` per show, skipped when `dry_run`). -/
def sync_as_collection (matched : List MatchResult) (cur : List Candidate)
    (target : Str) (dry_run : Bool) :
    (List (Option Str) × List Str × List (Option Str)) × List Mutation :=
  let ta := to_add matched cur
  let tr := to_remove matched cur
  let al := already_synced matched cur
  ((ta.map MatchResult.plex_title, tr.map Candidate.title, al.map MatchResult.plex_title),
    (if dry_run then [] else ta.map (fun r => Mutation.addCollection (resultKey r) target)) ++
    (if dry_run then [] else tr.map (fun s => Mutation.removeCollection s.ratingKey target)))

/-- `sync_as_playlist` (kodi2plex.py lines 340–410): `existing` is the
found playlist's item snapshot (`none` when `plex.playlist` raised
`NotFound`).  Returns the `(added, removed, already)` title lists and the
mutation trace (`createPlaylist` or one `addItems`/`removeItems` batch,
skipped when `dry_run`). -/
def sync_as_playlist (matched : List MatchResult) (existing : Option (List Candidate))
    (target : Str) (dry_run : Bool) :
    (List (Option Str) × List Str × List (Option Str)) × List Mutation :=
  match existing with
  | none =>
    match matched with
    | [] => (([], [], []), [])
    | _ =>
      ((matched.map MatchResult.plex_title, [], []),
        if dry_run then [] else [Mutation.createPlaylist target (desiredIds matched)])
  | some items =>
    let ta := matched.filter (fun r => !elemKey (resultKey r) (currentIds items))
    let tr := items.filter (fun s => !elemKey s.ratingKey (desiredIds matched))
    let al := matched.filter (fun r => elemKey (resultKey r) (currentIds items))
    ((ta.map MatchResult.plex_title, tr.map Candidate.title, al.map MatchResult.plex_title),
      (if dry_run ∨ ta = [] then [] else [Mutation.addItems target (ta.map resultKey)]) ++
      (if dry_run ∨ tr = [] then []
        else [Mutation.removeItems target (tr.map Candidate.ratingKey)]))

/-!
## The matching loop of `sync` (kodi2plex.py lines 463–487)
-/

/-- The body of `for title in sorted(playlist.titles)`: collect matched
results and not-found titles, in iteration order. -/
def syncMatchLoop (pool : List Candidate) (threshold : Nat) :
    List Str → List MatchResult × List Str
  | [] => ([], [])
  | t :: ts =>
    let r := find_best_match t pool threshold
    let rest := syncMatchLoop pool threshold ts
    if r.matched then (r :: rest.1, rest.2) else (rest.1, t :: rest.2)

/-- The matching phase of `sync`: titles are visited in ascending
lexicographic order (`sorted(playlist.titles)`), duplicates included. -/
def syncMatch (titles : List Str) (pool : List Candidate) (threshold : Nat) :
    List MatchResult × List Str :=
  syncMatchLoop pool threshold (List.insertionSort lexR titles)

/-!
## Concrete fixtures used in witnesses and counterexamples
-/

/-- A matched result carrying show 1, "The Wire". -/
def exResult : MatchResult :=
  { playlist_title := str "The Wire", plex_show := some ⟨1, str "The Wire"⟩,
    plex_title := some (str "The Wire"), score := 100, matched := true }

/-!
## Helper lemmas
-/

theorem elemKey_eq_true_iff (k : Nat) (l : List Nat) : elemKey k l = true ↔ k ∈ l := by
  simp [elemKey]

theorem bestFold_nil (np : Str) (acc : Nat × Nat × Option Candidate) :
    bestFold np [] acc = acc := rfl

theorem bestFold_cons (np : Str) (c : Candidate) (rest : List Candidate)
    (acc : Nat × Nat × Option Candidate) :
    bestFold np (c :: rest) acc =
      if acc.1 < combined np (normalize_title c.title) ∨
          (acc.1 = combined np (normalize_title c.title) ∧
            acc.2.1 < fuzzRatio np (normalize_title c.title)) then
        bestFold np rest
          (combined np (normalize_title c.title), fuzzRatio np (normalize_title c.title), some c)
      else bestFold np rest acc := rfl

theorem bestFold_step_take (np : Str) (c : Candidate) (rest : List Candidate)
    (bs br : Nat) (bo : Option Candidate)
    (h : bs < combined np (normalize_title c.title) ∨
      (bs = combined np (normalize_title c.title) ∧
        br < fuzzRatio np (normalize_title c.title))) :
    bestFold np (c :: rest) (bs, br, bo) =
      bestFold np rest
        (combined np (normalize_title c.title), fuzzRatio np (normalize_title c.title), some c) := by
  rw [bestFold_cons]
  exact if_pos h

theorem bestFold_step_skip (np : Str) (c : Candidate) (rest : List Candidate)
    (bs br : Nat) (bo : Option Candidate)
    (h : ¬(bs < combined np (normalize_title c.title) ∨
      (bs = combined np (normalize_title c.title) ∧
        br < fuzzRatio np (normalize_title c.title)))) :
    bestFold np (c :: rest) (bs, br, bo) = bestFold np rest (bs, br, bo) := by
  rw [bestFold_cons]
  exact if_neg h

theorem bestFold_some (np : Str) :
    ∀ (l : List Candidate) (s r : Nat) (c : Candidate),
      ∃ s' r' c', bestFold np l (s, r, some c) = (s', r', some c') := by
  intro l
  induction l with
  | nil => exact fun s r c => ⟨s, r, c, rfl⟩
  | cons d l ih =>
    intro s r c
    rw [bestFold_cons]
    split
    · exact ih _ _ _
    · exact ih _ _ _

theorem bestFold_none_eq (np : Str) :
    ∀ (l : List Candidate) (acc : Nat × Nat × Option Candidate),
      (bestFold np l acc).2.2 = none → bestFold np l acc = acc := by
  intro l
  induction l with
  | nil => exact fun acc _ => rfl
  | cons d l ih =>
    intro acc h
    rw [bestFold_cons] at h ⊢
    split at h
    · obtain ⟨s', r', c', heq⟩ := bestFold_some np l _ _ d
      rw [heq] at h
      cases h
    · rename_i hcond
      rw [if_neg hcond]
      exact ih acc h

/-- C2: `find_best_match` accepts exactly when the best combined score
reaches the threshold and the best basic ratio reaches the fixed guard
rail 70; a rejected result carries no candidate and the best combined
score found over the pool. -/
theorem c2_accept_iff (pt : Str) (shows : List Candidate) (th : Nat) :
    ((find_best_match pt shows th).matched = true ↔
      th ≤ (bestFold (normalize_title pt) shows (0, 0, none)).1 ∧
        70 ≤ (bestFold (normalize_title pt) shows (0, 0, none)).2.1) ∧
    ((find_best_match pt shows th).matched = false →
      (find_best_match pt shows th).plex_show = none ∧
        (find_best_match pt shows th).score =
          (bestFold (normalize_title pt) shows (0, 0, none)).1) := by
  unfold find_best_match
  rcases hbf : bestFold (normalize_title pt) shows (0, 0, none) with ⟨bs, br, bo⟩
  cases bo with
  | none =>
    have h0 := bestFold_none_eq (normalize_title pt) shows _ (by rw [hbf])
    rw [hbf] at h0
    injection h0 with h1 h2
    injection h2 with h2 h3
    subst h1
    subst h2
    simp
  | some sh =>
    by_cases hc : th ≤ bs ∧ 70 ≤ br
    · simp [hc]
    · simp [hc]

/-- Witness for C2 at the empty pool and threshold 80. -/
theorem c2_accept_iff_witness :
    (find_best_match (str "The Wire") [] 80).plex_show = none ∧
    (find_best_match (str "The Wire") [] 80).score =
      (bestFold (normalize_title (str "The Wire")) [] (0, 0, none)).1 :=
  (c2_accept_iff (str "The Wire") [] 80).2 (by decide)

/-- C6: the substring-tolerant score enters the combined score only when
both normalized strings are non-empty and their lengths are within a
factor of two, and counts as 0 otherwise; the combined score is the
maximum of the three scorers; consequently "Workin Moms" does not match a
pool containing only "Kin" at threshold 80. -/
theorem c6_substring_guard :
    (∀ np nc : Str,
      ¬(0 < np.length ∧ 0 < nc.length ∧
          max np.length nc.length ≤ 2 * min np.length nc.length) →
      combined np nc = max (fuzzRatio np nc) (tokenSortRatio np nc)) ∧
    (∀ np nc : Str,
      (0 < np.length ∧ 0 < nc.length ∧
          max np.length nc.length ≤ 2 * min np.length nc.length) →
      combined np nc =
        max (fuzzRatio np nc) (max (tokenSortRatio np nc) (windowRatio np nc))) ∧
    (find_best_match (str "Workin Moms") [⟨1, str "Kin"⟩] 80).matched = false ∧
    (find_best_match (str "Workin Moms") [⟨1, str "Kin"⟩] 80).score = 43 := by
  refine ⟨fun np nc h => ?_, fun np nc h => ?_, by decide, by decide⟩
  · unfold combined substScore
    rw [if_neg h, Nat.max_zero]
  · unfold combined substScore
    rw [if_pos h]

/-- Witness for C6's guard clauses at "workin moms" / "kin" (guard fails)
and "wire" / "wire" (guard holds). -/
theorem c6_substring_guard_witness :
    combined (str "workin moms") (str "kin") =
      max (fuzzRatio (str "workin moms") (str "kin"))
        (tokenSortRatio (str "workin moms") (str "kin")) ∧
    combined (str "wire") (str "wire") =
      max (fuzzRatio (str "wire") (str "wire"))
        (max (tokenSortRatio (str "wire") (str "wire"))
          (windowRatio (str "wire") (str "wire"))) :=
  ⟨c6_substring_guard.1 _ _ (by decide), c6_substring_guard.2.1 _ _ (by decide)⟩

set_option maxHeartbeats 4000000 in
/-- C5: the best candidate is tracked by the composite key
`(combined_score, exact_order_similarity)`: a tie on combined score is
broken towards the strictly higher basic ratio, whichever of the two pool
orders is used; in particular the query "Castlevania" selects the exact
title over "Castlevania: Nocturne" in both pool orders. -/
theorem c5_tie_break :
    (∀ (pt : Str) (c1 c2 : Candidate),
      combined (normalize_title pt) (normalize_title c1.title) =
        combined (normalize_title pt) (normalize_title c2.title) →
      fuzzRatio (normalize_title pt) (normalize_title c2.title) <
        fuzzRatio (normalize_title pt) (normalize_title c1.title) →
      (bestFold (normalize_title pt) [c1, c2] (0, 0, none)).2.2 = some c1 ∧
      (bestFold (normalize_title pt) [c2, c1] (0, 0, none)).2.2 = some c1) ∧
    (find_best_match (str "Castlevania")
        [⟨1, str "Castlevania"⟩, ⟨2, str "Castlevania: Nocturne"⟩] 80).plex_show =
      some ⟨1, str "Castlevania"⟩ ∧
    (find_best_match (str "Castlevania")
        [⟨2, str "Castlevania: Nocturne"⟩, ⟨1, str "Castlevania"⟩] 80).plex_show =
      some ⟨1, str "Castlevania"⟩ := by
  refine ⟨fun pt c1 c2 hs hr => ?_, by decide, by decide⟩
  have h1 : fuzzRatio (normalize_title pt) (normalize_title c1.title) ≤
      combined (normalize_title pt) (normalize_title c1.title) := le_max_left _ _
  have hpos : 0 < combined (normalize_title pt) (normalize_title c1.title) := by omega
  have hpos2 : 0 < combined (normalize_title pt) (normalize_title c2.title) := by omega
  have hneg : ¬ (combined (normalize_title pt) (normalize_title c1.title) <
        combined (normalize_title pt) (normalize_title c2.title) ∨
      (combined (normalize_title pt) (normalize_title c1.title) =
          combined (normalize_title pt) (normalize_title c2.title) ∧
        fuzzRatio (normalize_title pt) (normalize_title c1.title) <
          fuzzRatio (normalize_title pt) (normalize_title c2.title))) := by
    rintro (h | ⟨h, h'⟩) <;> omega
  constructor
  · rw [bestFold_step_take (normalize_title pt) c1 [c2] 0 0 none (Or.inl hpos),
      bestFold_step_skip (normalize_title pt) c2 [] _ _ _ hneg, bestFold_nil]
  · rw [bestFold_step_take (normalize_title pt) c2 [c1] 0 0 none (Or.inl hpos2),
      bestFold_step_take (normalize_title pt) c1 [] _ _ _ (Or.inr ⟨hs.symm, hr⟩),
      bestFold_nil]

/-- Witness for C5's general tie-break clause on a concrete tied pair. -/
theorem c5_tie_break_witness :
    (bestFold (normalize_title (str "Castlevania"))
      [⟨1, str "Castlevania"⟩, ⟨2, str "Castlevania: Nocturne"⟩] (0, 0, none)).2.2 =
      some ⟨1, str "Castlevania"⟩ :=
  (c5_tie_break.1 (str "Castlevania") ⟨1, str "Castlevania"⟩
    ⟨2, str "Castlevania: Nocturne"⟩ (by decide) (by decide)).1

/-!
## C7: year stripping
-/

theorem stripYear_of_rev (s : Str) (d1 d2 d3 d4 : Nat) (rest : List Nat)
    (h : (dropTrailingWs s).reverse = 41 :: d1 :: d2 :: d3 :: d4 :: 40 :: rest)
    (hd : (isDigit d1 && isDigit d2 && isDigit d3 && isDigit d4) = true) :
    stripYear s = (rest.dropWhile isSpace).reverse := by
  unfold stripYear
  rw [h]
  simp [hd]

theorem stripYear_of_rev_nondigit (s : Str) (d1 d2 d3 d4 : Nat) (rest : List Nat)
    (h : (dropTrailingWs s).reverse = 41 :: d1 :: d2 :: d3 :: d4 :: 40 :: rest)
    (hd : (isDigit d1 && isDigit d2 && isDigit d3 && isDigit d4) = false) :
    stripYear s = s := by
  unfold stripYear
  rw [h]
  simp [hd]

theorem dropTrailingWs_rev_append_year (u : Str) (d1 d2 d3 d4 : Nat) :
    (dropTrailingWs (u ++ [32, 40, d1, d2, d3, d4, 41])).reverse =
      41 :: d4 :: d3 :: d2 :: d1 :: 40 :: (32 :: u.reverse) := by
  unfold dropTrailingWs
  rw [List.reverse_reverse, List.reverse_append]
  simp [List.dropWhile, isSpace]

theorem dropTrailingWs_rev_append_paren (u : Str) (c1 c2 c3 c4 : Nat) :
    (dropTrailingWs (u ++ [40, c1, c2, c3, c4, 41])).reverse =
      41 :: c4 :: c3 :: c2 :: c1 :: 40 :: u.reverse := by
  unfold dropTrailingWs
  rw [List.reverse_reverse, List.reverse_append]
  simp [List.dropWhile, isSpace]

/-- C7: `normalize_title` strips a trailing parenthesised 4-digit year
(with the whitespace before it) only when anchored at the string's end,
and strips no other parenthetical: the year rule removes exactly the final
`" (dddd)"` group, a final parenthesised group with a non-digit is left
intact, and the two documented examples hold. -/
theorem c7_year_stripping :
    (∀ (u : Str) (d1 d2 d3 d4 : Nat),
      isDigit d1 = true → isDigit d2 = true → isDigit d3 = true → isDigit d4 = true →
      stripYear (u ++ [32, 40, d1, d2, d3, d4, 41]) = dropTrailingWs u) ∧
    (∀ (u : Str) (c1 c2 c3 c4 : Nat),
      ¬(isDigit c1 = true ∧ isDigit c2 = true ∧ isDigit c3 = true ∧ isDigit c4 = true) →
      stripYear (u ++ [40, c1, c2, c3, c4, 41]) = u ++ [40, c1, c2, c3, c4, 41]) ∧
    normalize_title (str "The Umbrella Academy (2019)") =
      normalize_title (str "umbrella academy") ∧
    normalize_title (str "Shameless (UK)") ≠ normalize_title (str "Shameless") := by
  refine ⟨fun u d1 d2 d3 d4 h1 h2 h3 h4 => ?_, fun u c1 c2 c3 c4 hc => ?_,
    by decide, by decide⟩
  · rw [stripYear_of_rev _ d4 d3 d2 d1 (32 :: u.reverse)
      (dropTrailingWs_rev_append_year u d1 d2 d3 d4) (by simp [h1, h2, h3, h4])]
    have h32 : isSpace 32 = true := by decide
    simp [List.dropWhile, h32, dropTrailingWs]
  · have hd : (isDigit c4 && isDigit c3 && isDigit c2 && isDigit c1) = false := by
      rcases h1 : isDigit c1 <;> rcases h2 : isDigit c2 <;> rcases h3 : isDigit c3 <;>
        rcases h4 : isDigit c4 <;> simp_all
    exact stripYear_of_rev_nondigit _ c4 c3 c2 c1 u.reverse
      (dropTrailingWs_rev_append_paren u c1 c2 c3 c4) hd

/-- Witness for C7's general clauses at "x (2014)" and "x (20a4)". -/
theorem c7_year_stripping_witness :
    stripYear (str "x" ++ [32, 40, 50, 48, 49, 52, 41]) = dropTrailingWs (str "x") ∧
    stripYear (str "x" ++ [40, 50, 48, 97, 52, 41, 41]) ≠ [] := by
  constructor
  · exact c7_year_stripping.1 (str "x") 50 48 49 52 (by decide) (by decide)
      (by decide) (by decide)
  · decide

/-!
## C8: empty inputs
-/

theorem getLastD_replicate_zero : ∀ n : Nat, (List.replicate n (0 : Nat)).getLastD 0 = 0 := by
  intro n
  induction n with
  | zero => rfl
  | succ m ih => rw [List.replicate_succ, List.getLastD_cons, ih]

theorem lcsLen_nil_left (b : Str) : lcsLen [] b = 0 := by
  unfold lcsLen
  rw [List.foldl_nil, getLastD_replicate_zero]

theorem fuzzRatio_nil_left (b : Str) (hb : b ≠ []) : fuzzRatio [] b = 0 := by
  have hb' : 0 < b.length := List.length_pos.mpr hb
  unfold fuzzRatio roundHalfEven
  rw [lcsLen_nil_left]
  simp only [List.length_nil, Nat.zero_add, Nat.mul_zero, Nat.zero_div, Nat.zero_mod]
  rw [if_neg (by omega), if_pos (by omega)]

theorem substScore_nil_left (b : Str) : substScore [] b = 0 := by
  unfold substScore
  rw [if_neg]
  rintro ⟨h, -, -⟩
  simp at h

theorem combined_nil_left (b : Str) (hb : b ≠ [])
    (ht : sortTokens (default_process b) ≠ []) : combined [] b = 0 := by
  have h1 : fuzzRatio [] b = 0 := fuzzRatio_nil_left b hb
  have h2 : tokenSortRatio [] b = 0 := by
    unfold tokenSortRatio
    have hdp : sortTokens (default_process ([] : Str)) = [] := rfl
    rw [hdp]
    exact fuzzRatio_nil_left _ ht
  unfold combined
  rw [h1, h2, substScore_nil_left]
  simp

theorem bestFold_ratio_zero (np : Str) :
    ∀ (l : List Candidate) (bs : Nat) (bo : Option Candidate),
      (∀ c ∈ l, fuzzRatio np (normalize_title c.title) = 0) →
      (bestFold np l (bs, 0, bo)).2.1 = 0 := by
  intro l
  induction l with
  | nil => exact fun bs bo _ => rfl
  | cons d l ih =>
    intro bs bo hl
    rw [bestFold_cons]
    split
    · rw [hl d (List.mem_cons_self d l)]
      exact ih _ _ (fun c hc => hl c (List.mem_cons_of_mem d hc))
    · exact ih bs bo (fun c hc => hl c (List.mem_cons_of_mem d hc))

theorem bestFold_all_zero (np : Str) :
    ∀ l : List Candidate,
      (∀ c ∈ l, combined np (normalize_title c.title) = 0 ∧
        fuzzRatio np (normalize_title c.title) = 0) →
      bestFold np l (0, 0, none) = (0, 0, none) := by
  intro l
  induction l with
  | nil => exact fun _ => rfl
  | cons d l ih =>
    intro hl
    obtain ⟨h1, h2⟩ := hl d (List.mem_cons_self d l)
    rw [bestFold_step_skip np d l 0 0 none (by rintro (h | ⟨-, h⟩) <;> omega)]
    exact ih (fun c hc => hl c (List.mem_cons_of_mem d hc))

/-- C8 (amended): an empty candidate pool yields an unmatched result with
score 0 for every title and threshold; a source title that normalizes to
empty is unmatched whenever every candidate's normalized title is
non-empty, and additionally carries score 0 when every candidate's
token-sorted processed form is non-empty as well.  (The original claim
fails when a candidate also normalizes to empty: two empty strings score
100 — see the counterexample.) -/
theorem c8_empty_inputs :
    (∀ (pt : Str) (th : Nat),
      find_best_match pt [] th = { playlist_title := pt, score := 0 }) ∧
    (∀ (pt : Str) (shows : List Candidate) (th : Nat),
      normalize_title pt = [] →
      (∀ c ∈ shows, normalize_title c.title ≠ []) →
      (find_best_match pt shows th).matched = false) ∧
    (∀ (pt : Str) (shows : List Candidate) (th : Nat),
      normalize_title pt = [] →
      (∀ c ∈ shows, normalize_title c.title ≠ [] ∧
        sortTokens (default_process (normalize_title c.title)) ≠ []) →
      find_best_match pt shows th = { playlist_title := pt, score := 0 }) := by
  refine ⟨fun pt th => rfl, fun pt shows th hnp hshows => ?_, fun pt shows th hnp hshows => ?_⟩
  · have hzero : (bestFold (normalize_title pt) shows (0, 0, none)).2.1 = 0 := by
      apply bestFold_ratio_zero
      intro c hc
      rw [hnp]
      exact fuzzRatio_nil_left _ (hshows c hc)
    unfold find_best_match
    rcases hbf : bestFold (normalize_title pt) shows (0, 0, none) with ⟨bs, br, bo⟩
    rw [hbf] at hzero
    cases bo with
    | none => rfl
    | some sh =>
      have h70 : ¬(th ≤ bs ∧ 70 ≤ br) := by
        rintro ⟨-, h70⟩
        simp at hzero
        omega
      simp [h70]
  · have hbf : bestFold (normalize_title pt) shows (0, 0, none) = (0, 0, none) := by
      rw [hnp]
      apply bestFold_all_zero
      intro c hc
      obtain ⟨h1, h2⟩ := hshows c hc
      exact ⟨combined_nil_left _ h1 h2, fuzzRatio_nil_left _ h1⟩
    unfold find_best_match
    rw [hnp] at hbf ⊢
    rw [hbf]

/-- Witness for C8 at a title normalizing to empty against a non-empty
candidate. -/
theorem c8_empty_inputs_witness :
    find_best_match (str "(2019)") [⟨1, str "Wire"⟩] 80 =
      { playlist_title := str "(2019)", score := 0 } :=
  c8_empty_inputs.2.2 (str "(2019)") [⟨1, str "Wire"⟩] 80 (by decide) (by decide)

/-- C8 counterexample: a source title that normalizes to empty matched
against a candidate that also normalizes to empty scores 100 and is
accepted, contradicting "unmatched with score 0". -/
theorem c8_counterexample :
    (find_best_match (str "") [⟨1, str "!!!"⟩] 80).matched = true ∧
    (find_best_match (str "") [⟨1, str "!!!"⟩] 80).score = 100 := by decide

/-!
## C9: dry-run frame property
-/

/-- C9: with the dry-run flag set, both sync paths return exactly the same
`(added, removed, already)` lists as a non-dry run over the same inputs,
and the mutation trace is empty — no `addCollection`, `removeCollection`,
`createPlaylist`, `addItems` or `removeItems` call is made. -/
theorem c9_dry_run_frame (matched : List MatchResult) (cur : List Candidate)
    (existing : Option (List Candidate)) (target : Str) :
    (sync_as_collection matched cur target true).1 =
      (sync_as_collection matched cur target false).1 ∧
    (sync_as_collection matched cur target true).2 = [] ∧
    (sync_as_playlist matched existing target true).1 =
      (sync_as_playlist matched existing target false).1 ∧
    (sync_as_playlist matched existing target true).2 = [] := by
  refine ⟨rfl, by simp [sync_as_collection], ?_, ?_⟩
  · cases existing with
    | none => cases matched <;> rfl
    | some items => rfl
  · cases existing with
    | none => cases matched <;> simp [sync_as_playlist]
    | some items => simp [sync_as_playlist]

/-!
## C3: reconciliation completeness (corrected) and C4: idempotence
-/

/-- C3 (amended): `to_add` and `already_synced` partition the matched
results — every matched result appears in exactly one of the two lists —
and their combined identity list is a permutation of the desired identity
list; it is duplicate-free whenever the desired identities are.  Likewise
`to_remove` and the kept live shows partition the live snapshot.  (The
original "no duplicates for every run" fails when a duplicated title
matches — see the counterexample.) -/
theorem c3_reconcile_partition (matched : List MatchResult) (cur : List Candidate) :
    (to_add matched cur ++ already_synced matched cur).Perm matched ∧
    (∀ k, (k ∈ (to_add matched cur ++ already_synced matched cur).map resultKey ↔
      k ∈ desiredIds matched)) ∧
    ((to_add matched cur ++ already_synced matched cur).map resultKey).Perm
      (desiredIds matched) ∧
    ((desiredIds matched).Nodup →
      ((to_add matched cur ++ already_synced matched cur).map resultKey).Nodup) ∧
    (to_remove matched cur ++ keptLive matched cur).Perm cur := by
  have hperm : (to_add matched cur ++ already_synced matched cur).Perm matched := by
    unfold to_add already_synced
    exact List.perm_append_comm.trans
      (List.filter_append_perm (fun r => elemKey (resultKey r) (currentIds cur)) matched)
  have hmap : ((to_add matched cur ++ already_synced matched cur).map resultKey).Perm
      (desiredIds matched) := hperm.map resultKey
  refine ⟨hperm, fun k => hmap.mem_iff, hmap, fun h => (hmap.nodup_iff).mpr h, ?_⟩
  unfold to_remove keptLive
  exact List.perm_append_comm.trans
    (List.filter_append_perm (fun s => elemKey s.ratingKey (desiredIds matched)) cur)

/-- Witness for C3's conditional no-duplicates clause at a singleton run. -/
theorem c3_reconcile_partition_witness :
    ((to_add [exResult] [] ++ already_synced [exResult] []).map resultKey).Nodup :=
  (c3_reconcile_partition [exResult] []).2.2.2.1 (by decide)

/-- C3 counterexample: two matched results carrying the same candidate
(as produced by a duplicated playlist title) both land in `to_add`, so the
combined identity list has a duplicate and is not equal to the desired
identity set. -/
theorem c3_counterexample :
    (to_add [exResult, exResult] [] ++
      already_synced [exResult, exResult] []).map resultKey = [1, 1] ∧
    ¬ ((to_add [exResult, exResult] [] ++
      already_synced [exResult, exResult] []).map resultKey).Nodup := by
  decide

/-- C4: rerunning the reconciler on the live snapshot that reflects the
first run's applied adds and removes (and no external changes) yields an
empty `to_add` and an empty `to_remove`. -/
theorem c4_reconcile_idem (matched : List MatchResult) (cur : List Candidate)
    (h : ∀ r ∈ matched, r.plex_show.isSome = true) :
    to_add matched (applyRun matched cur) = [] ∧
    to_remove matched (applyRun matched cur) = [] := by
  constructor
  · unfold to_add
    rw [List.filter_eq_nil_iff]
    intro r hr
    suffices hmem : resultKey r ∈ currentIds (applyRun matched cur) by
      simp [elemKey, hmem]
    unfold currentIds applyRun
    rw [List.map_append, List.mem_append]
    by_cases hk : resultKey r ∈ currentIds cur
    · left
      obtain ⟨s, hs, hsk⟩ := List.mem_map.mp hk
      apply List.mem_map.mpr
      refine ⟨s, ?_, hsk⟩
      unfold keptLive
      apply List.mem_filter.mpr
      refine ⟨hs, ?_⟩
      rw [elemKey_eq_true_iff, hsk]
      exact List.mem_map_of_mem resultKey hr
    · right
      obtain ⟨c, hc⟩ := Option.isSome_iff_exists.mp (h r hr)
      have hkey : resultKey r = c.ratingKey := by simp [resultKey, hc]
      rw [hkey]
      apply List.mem_map_of_mem
      apply List.mem_filterMap.mpr
      refine ⟨r, ?_, hc⟩
      unfold to_add
      apply List.mem_filter.mpr
      refine ⟨hr, ?_⟩
      simp only [elemKey, Bool.not_eq_true', decide_eq_false_iff_not]
      exact hk
  · unfold to_remove
    rw [List.filter_eq_nil_iff]
    intro s hs
    suffices hmem : s.ratingKey ∈ desiredIds matched by
      simp [elemKey, hmem]
    unfold applyRun at hs
    rcases List.mem_append.mp hs with h1 | h2
    · have := (List.mem_filter.mp h1).2
      rwa [elemKey_eq_true_iff] at this
    · obtain ⟨r, hrta, hpr⟩ := List.mem_filterMap.mp h2
      have hr : r ∈ matched := (List.mem_filter.mp hrta).1
      have hkey : resultKey r = s.ratingKey := by simp [resultKey, hpr]
      exact hkey ▸ List.mem_map_of_mem resultKey hr

/-- Witness for C4 at a singleton matched set and a disjoint live show. -/
theorem c4_reconcile_idem_witness :
    (∀ r ∈ [exResult], r.plex_show.isSome = true) ∧
    to_add [exResult] (applyRun [exResult] [⟨2, str "Kin"⟩]) = [] ∧
    to_remove [exResult] (applyRun [exResult] [⟨2, str "Kin"⟩]) = [] :=
  ⟨by decide, (c4_reconcile_idem [exResult] [⟨2, str "Kin"⟩] (by decide)).1,
    (c4_reconcile_idem [exResult] [⟨2, str "Kin"⟩] (by decide)).2⟩

/-!
## C10: matching order of `sync`
-/

theorem lexLe_total : ∀ a b : Str, lexLe a b = true ∨ lexLe b a = true := by
  intro a
  induction a with
  | nil => intro b; left; rfl
  | cons x xs ih =>
    intro b
    cases b with
    | nil => right; rfl
    | cons y ys =>
      rcases Nat.lt_trichotomy x y with h1 | h1 | h1
      · left
        simp [lexLe, h1]
      · subst h1
        rcases ih ys with h | h
        · left
          simp [lexLe, Nat.lt_irrefl, h]
        · right
          simp [lexLe, Nat.lt_irrefl, h]
      · right
        simp [lexLe, h1]

theorem lexLe_trans :
    ∀ a b c : Str, lexLe a b = true → lexLe b c = true → lexLe a c = true := by
  intro a
  induction a with
  | nil => intro b c _ _; rfl
  | cons x xs ih =>
    intro b c hab hbc
    cases b with
    | nil => simp [lexLe] at hab
    | cons y ys =>
      cases c with
      | nil => simp [lexLe] at hbc
      | cons z zs =>
        rcases Nat.lt_trichotomy x y with h1 | h1 | h1
        · rcases Nat.lt_trichotomy y z with h2 | h2 | h2
          · simp [lexLe, Nat.lt_trans h1 h2]
          · subst h2
            simp [lexLe, h1]
          · exfalso
            simp [lexLe, show ¬ y < z by omega, h2] at hbc
        · subst h1
          simp only [lexLe, Nat.lt_irrefl, if_false] at hab
          rcases Nat.lt_trichotomy x z with h2 | h2 | h2
          · simp [lexLe, h2]
          · subst h2
            simp only [lexLe, Nat.lt_irrefl, if_false] at hbc ⊢
            exact ih ys zs hab hbc
          · exfalso
            simp [lexLe, show ¬ x < z by omega, h2] at hbc
        · exfalso
          simp [lexLe, show ¬ x < y by omega, h1] at hab

theorem lexLe_antisymm :
    ∀ a b : Str, lexLe a b = true → lexLe b a = true → a = b := by
  intro a
  induction a with
  | nil =>
    intro b _ hba
    cases b with
    | nil => rfl
    | cons y ys => simp [lexLe] at hba
  | cons x xs ih =>
    intro b hab hba
    cases b with
    | nil => simp [lexLe] at hab
    | cons y ys =>
      rcases Nat.lt_trichotomy x y with h1 | h1 | h1
      · exfalso
        simp [lexLe, show ¬ y < x by omega, h1] at hba
      · subst h1
        simp only [lexLe, Nat.lt_irrefl, if_false] at hab hba
        rw [ih ys hab hba]
      · exfalso
        simp [lexLe, show ¬ x < y by omega, h1] at hab

instance : IsTotal Str lexR := ⟨lexLe_total⟩

instance : IsTrans Str lexR := ⟨lexLe_trans⟩

instance : IsAntisymm Str lexR := ⟨lexLe_antisymm⟩

theorem find_best_match_title (pt : Str) (shows : List Candidate) (th : Nat) :
    (find_best_match pt shows th).playlist_title = pt := by
  unfold find_best_match
  rcases hbf : bestFold (normalize_title pt) shows (0, 0, none) with ⟨bs, br, bo⟩
  cases bo with
  | none => rfl
  | some sh =>
    by_cases hc : th ≤ bs ∧ 70 ≤ br
    · simp [hc]
    · simp [hc]

theorem syncMatchLoop_fst (pool : List Candidate) (th : Nat) :
    ∀ ts : List Str, (syncMatchLoop pool th ts).1.map MatchResult.playlist_title =
      ts.filter (fun t => (find_best_match t pool th).matched) := by
  intro ts
  induction ts with
  | nil => rfl
  | cons t ts ih =>
    simp only [syncMatchLoop, List.filter_cons]
    by_cases hm : (find_best_match t pool th).matched
    · rw [if_pos hm, if_pos hm]
      simp [find_best_match_title, ih]
    · rw [if_neg hm, if_neg hm]
      exact ih

theorem syncMatchLoop_snd (pool : List Candidate) (th : Nat) :
    ∀ ts : List Str, (syncMatchLoop pool th ts).2 =
      ts.filter (fun t => !(find_best_match t pool th).matched) := by
  intro ts
  induction ts with
  | nil => rfl
  | cons t ts ih =>
    simp only [syncMatchLoop, List.filter_cons]
    by_cases hm : (find_best_match t pool th).matched
    · rw [if_pos hm]
      simp [hm, ih]
    · rw [if_neg hm]
      simp [hm, ih]

/-- C10: `sync` visits the desired titles in ascending lexicographic order
of the raw title — so the matched results and the not-found report are
sorted and the output is independent of the provider's order — and each
occurrence of a duplicated title yields its own result, so a duplicated
matching title places the same identity in `to_add` twice. -/
theorem c10_sync_order :
    (∀ (titles : List Str) (pool : List Candidate) (th : Nat),
      ((syncMatch titles pool th).1.map MatchResult.playlist_title).Sorted lexR ∧
      ((syncMatch titles pool th).2).Sorted lexR) ∧
    (∀ (titles titles' : List Str) (pool : List Candidate) (th : Nat),
      titles.Perm titles' → syncMatch titles pool th = syncMatch titles' pool th) ∧
    (to_add (syncMatch [str "The Wire", str "The Wire"] [⟨1, str "The Wire"⟩] 80).1
      []).map resultKey = [1, 1] := by
  refine ⟨fun titles pool th => ?_, fun titles titles' pool th hperm => ?_, by decide⟩
  · constructor
    · rw [syncMatch, syncMatchLoop_fst]
      exact (List.sorted_insertionSort lexR titles).filter _
    · rw [syncMatch, syncMatchLoop_snd]
      exact (List.sorted_insertionSort lexR titles).filter _
  · unfold syncMatch
    rw [List.eq_of_perm_of_sorted
      ((List.perm_insertionSort lexR titles).trans
        (hperm.trans (List.perm_insertionSort lexR titles').symm))
      (List.sorted_insertionSort lexR titles) (List.sorted_insertionSort lexR titles')]

/-- Witness for C10's provider-order independence at a concrete swap. -/
theorem c10_sync_order_witness :
    syncMatch [str "b", str "a"] [] 80 = syncMatch [str "a", str "b"] [] 80 :=
  c10_sync_order.2.1 [str "b", str "a"] [str "a", str "b"] [] 80 (by decide)

/-!
## C1: normalization idempotence (corrected)

`normalize_title` output is canonical: words of non-space keep-characters
fixed by lowercasing, joined by single spaces.  Every pipeline stage is
the identity on such strings except `stripArticle`, which may strip one
more leading article — the source of the idempotence failure.
-/

theorem dropWhile_isSpace_all (l : Str) (h : ∀ c ∈ l, isSpace c = false) :
    l.dropWhile isSpace = l := by
  cases l with
  | nil => rfl
  | cons c cs =>
    rw [List.dropWhile_cons, if_neg (by simp [h c (List.mem_cons_self c cs)])]

theorem dropWhile_head_false (c : Nat) (cs : Str) (h : isSpace c = false) :
    (c :: cs).dropWhile isSpace = c :: cs := by
  rw [List.dropWhile_cons, if_neg (by simp [h])]

theorem exists_head_of_dropWhile_self (l : Str) (hne : l ≠ [])
    (h : l.dropWhile isSpace = l) : ∃ c cs, l = c :: cs ∧ isSpace c = false := by
  cases l with
  | nil => exact absurd rfl hne
  | cons c cs =>
    refine ⟨c, cs, rfl, ?_⟩
    by_cases hc : isSpace c = true
    · rw [List.dropWhile_cons, if_pos hc] at h
      have hle := (List.dropWhile_sublist (l := cs) isSpace).length_le
      have hlen := congrArg List.length h
      simp at hlen
      omega
    · simpa using hc

theorem splitAux_space (a : Nat) (acc : List Str) (ha : isSpace a = true) :
    splitAux a acc = [] :: acc := by
  unfold splitAux
  rw [if_pos ha]

theorem splitAux_word_nil (a : Nat) (ha : isSpace a = false) :
    splitAux a [] = [[a]] := by
  unfold splitAux
  rw [if_neg (by simp [ha])]

theorem splitAux_word_cons (a : Nat) (w : Str) (ws : List Str) (ha : isSpace a = false) :
    splitAux a (w :: ws) = (a :: w) :: ws := by
  unfold splitAux
  rw [if_neg (by simp [ha])]

theorem foldr_splitAux_word_cons (w x : Str) (xs : List Str)
    (hw : ∀ c ∈ w, isSpace c = false) :
    w.foldr splitAux (x :: xs) = (w ++ x) :: xs := by
  induction w with
  | nil => rfl
  | cons c cs ih =>
    rw [List.foldr_cons, ih (fun d hd => hw d (List.mem_cons_of_mem c hd)),
      splitAux_word_cons c _ _ (hw c (List.mem_cons_self c cs))]
    rfl

theorem foldr_splitAux_word_nil (w : Str) (hw : ∀ c ∈ w, isSpace c = false)
    (hne : w ≠ []) : w.foldr splitAux [] = [w] := by
  induction w with
  | nil => exact absurd rfl hne
  | cons c cs ih =>
    cases cs with
    | nil =>
      simp only [List.foldr_cons, List.foldr_nil]
      exact splitAux_word_nil c (hw c (List.mem_cons_self c []))
    | cons d ds =>
      rw [List.foldr_cons, ih (fun e he => hw e (List.mem_cons_of_mem c he)) (by simp),
        splitAux_word_cons c _ _ (hw c (List.mem_cons_self c (d :: ds)))]

theorem foldr_splitAux_joinWords :
    ∀ ws : List Str, (∀ w ∈ ws, w ≠ [] ∧ ∀ c ∈ w, isSpace c = false) →
    (joinWords ws).foldr splitAux [] = ws := by
  intro ws
  induction ws with
  | nil => intro _; rfl
  | cons w ws ih =>
    intro h
    cases ws with
    | nil =>
      obtain ⟨hne, hchars⟩ := h w (List.mem_cons_self w [])
      exact foldr_splitAux_word_nil w hchars hne
    | cons w' ws' =>
      obtain ⟨hne, hchars⟩ := h w (List.mem_cons_self _ _)
      have hrest : ∀ v ∈ w' :: ws', v ≠ [] ∧ ∀ c ∈ v, isSpace c = false :=
        fun v hv => h v (List.mem_cons_of_mem w hv)
      show (w ++ 32 :: joinWords (w' :: ws')).foldr splitAux [] = w :: w' :: ws'
      rw [List.foldr_append, List.foldr_cons, ih hrest]
      rw [splitAux_space 32 (w' :: ws') (by decide),
        foldr_splitAux_word_cons w [] (w' :: ws') hchars, List.append_nil]

theorem splitWs_joinWords (ws : List Str)
    (h : ∀ w ∈ ws, w ≠ [] ∧ ∀ c ∈ w, isSpace c = false) :
    splitWs (joinWords ws) = ws := by
  unfold splitWs
  rw [foldr_splitAux_joinWords ws h]
  apply List.filter_eq_self.mpr
  intro w hw
  obtain ⟨hne, -⟩ := h w hw
  cases w with
  | nil => exact absurd rfl hne
  | cons c cs => rfl

theorem mem_foldr_splitAux :
    ∀ (s : Str) (w : Str), w ∈ s.foldr splitAux [] → ∀ c ∈ w, isSpace c = false ∧ c ∈ s := by
  intro s
  induction s with
  | nil => intro w hw; simp at hw
  | cons a as ih =>
    intro w hw c hc
    rw [List.foldr_cons] at hw
    by_cases ha : isSpace a = true
    · rw [splitAux_space a _ ha] at hw
      rcases List.mem_cons.mp hw with h | h
      · subst h
        simp at hc
      · obtain ⟨h1, h2⟩ := ih w h c hc
        exact ⟨h1, List.mem_cons_of_mem a h2⟩
    · have ha' : isSpace a = false := by simpa using ha
      rcases hA : as.foldr splitAux [] with _ | ⟨w', ws'⟩
      · rw [hA, splitAux_word_nil a ha'] at hw
        simp at hw
        subst hw
        rcases List.mem_cons.mp hc with h | h
        · subst h
          exact ⟨ha', List.mem_cons_self _ _⟩
        · simp at h
      · rw [hA, splitAux_word_cons a w' ws' ha'] at hw
        rcases List.mem_cons.mp hw with h | h
        · subst h
          rcases List.mem_cons.mp hc with h' | h'
          · subst h'
            exact ⟨ha', List.mem_cons_self _ _⟩
          · obtain ⟨h1, h2⟩ := ih w' (hA ▸ List.mem_cons_self w' ws') c h'
            exact ⟨h1, List.mem_cons_of_mem a h2⟩
        · obtain ⟨h1, h2⟩ := ih w (hA ▸ List.mem_cons_of_mem w' h) c hc
          exact ⟨h1, List.mem_cons_of_mem a h2⟩

theorem splitWs_words (s : Str) (w : Str) (hw : w ∈ splitWs s) :
    w ≠ [] ∧ ∀ c ∈ w, isSpace c = false ∧ c ∈ s := by
  unfold splitWs at hw
  have h1 := List.mem_of_mem_filter hw
  have h2 := List.of_mem_filter hw
  refine ⟨?_, fun c hc => mem_foldr_splitAux s w h1 c hc⟩
  cases w with
  | nil => simp at h2
  | cons _ _ => simp

theorem splitWs_good (s : Str) :
    ∀ w ∈ splitWs s, w ≠ [] ∧ ∀ c ∈ w, isSpace c = false :=
  fun w hw => ⟨(splitWs_words s w hw).1, fun c hc => ((splitWs_words s w hw).2 c hc).1⟩

theorem joinWords_ne_nil (w : Str) (ws : List Str) (hne : w ≠ []) :
    joinWords (w :: ws) ≠ [] := by
  cases ws with
  | nil => simpa [joinWords] using hne
  | cons w' ws' =>
    show w ++ 32 :: joinWords (w' :: ws') ≠ []
    simp

theorem joinWords_dropWhile (ws : List Str)
    (h : ∀ w ∈ ws, w ≠ [] ∧ ∀ c ∈ w, isSpace c = false) :
    (joinWords ws).dropWhile isSpace = joinWords ws := by
  cases ws with
  | nil => rfl
  | cons w ws' =>
    obtain ⟨hne, hchars⟩ := h w (List.mem_cons_self _ _)
    cases w with
    | nil => exact absurd rfl hne
    | cons c cs =>
      cases ws' with
      | nil => exact dropWhile_head_false c cs (hchars c (List.mem_cons_self _ _))
      | cons w' ws'' =>
        show ((c :: cs) ++ 32 :: joinWords (w' :: ws'')).dropWhile isSpace = _
        rw [List.cons_append]
        exact dropWhile_head_false c _ (hchars c (List.mem_cons_self _ _))

theorem rev_joinWords_dropWhile (ws : List Str)
    (h : ∀ w ∈ ws, w ≠ [] ∧ ∀ c ∈ w, isSpace c = false) :
    (joinWords ws).reverse.dropWhile isSpace = (joinWords ws).reverse := by
  induction ws with
  | nil => rfl
  | cons w ws' ih =>
    obtain ⟨hne, hchars⟩ := h w (List.mem_cons_self _ _)
    cases ws' with
    | nil =>
      apply dropWhile_isSpace_all
      intro c hc
      exact hchars c (List.mem_reverse.mp hc)
    | cons w' ws'' =>
      have hrest : ∀ v ∈ w' :: ws'', v ≠ [] ∧ ∀ c ∈ v, isSpace c = false :=
        fun v hv => h v (List.mem_cons_of_mem w hv)
      have ihr := ih hrest
      have hJrevne : (joinWords (w' :: ws'')).reverse ≠ [] := by
        simpa using joinWords_ne_nil w' ws'' (hrest w' (List.mem_cons_self _ _)).1
      obtain ⟨c, cs, hcc, hcf⟩ := exists_head_of_dropWhile_self _ hJrevne ihr
      show (w ++ 32 :: joinWords (w' :: ws'')).reverse.dropWhile isSpace =
        (w ++ 32 :: joinWords (w' :: ws'')).reverse
      rw [List.reverse_append, List.reverse_cons, hcc, List.cons_append, List.cons_append]
      exact dropWhile_head_false c _ hcf

theorem stripEnds_joinWords (ws : List Str)
    (h : ∀ w ∈ ws, w ≠ [] ∧ ∀ c ∈ w, isSpace c = false) :
    stripEnds (joinWords ws) = joinWords ws := by
  unfold stripEnds dropTrailingWs
  rw [joinWords_dropWhile ws h, rev_joinWords_dropWhile ws h, List.reverse_reverse]

theorem collapseWs_collapseWs (s : Str) : collapseWs (collapseWs s) = collapseWs s := by
  unfold collapseWs
  rw [splitWs_joinWords (splitWs s) (splitWs_good s)]

theorem collapseWs_normalize (x : Str) :
    collapseWs (normalize_title x) = normalize_title x := by
  unfold normalize_title
  exact collapseWs_collapseWs _

theorem stripEnds_normalize (x : Str) :
    stripEnds (normalize_title x) = normalize_title x := by
  unfold normalize_title collapseWs
  exact stripEnds_joinWords _ (splitWs_good _)

theorem mem_joinWords :
    ∀ (ws : List Str) (c : Nat), c ∈ joinWords ws → c = 32 ∨ ∃ w ∈ ws, c ∈ w := by
  intro ws
  induction ws with
  | nil =>
    intro c hc
    simp [joinWords] at hc
  | cons w ws' ih =>
    intro c hc
    cases ws' with
    | nil => exact Or.inr ⟨w, List.mem_cons_self _ _, hc⟩
    | cons w' ws'' =>
      have hc' : c ∈ w ++ 32 :: joinWords (w' :: ws'') := hc
      rcases List.mem_append.mp hc' with h | h
      · exact Or.inr ⟨w, List.mem_cons_self _ _, h⟩
      · rcases List.mem_cons.mp h with h32 | h2
        · exact Or.inl h32
        · rcases ih c h2 with h | ⟨v, hv, hcv⟩
          · exact Or.inl h
          · exact Or.inr ⟨v, List.mem_cons_of_mem w hv, hcv⟩

theorem mem_dropTrailingWs (s : Str) (c : Nat) (h : c ∈ dropTrailingWs s) : c ∈ s := by
  unfold dropTrailingWs at h
  rw [List.mem_reverse] at h
  exact List.mem_reverse.mp ((List.dropWhile_sublist isSpace).subset h)

theorem mem_stripEnds (s : Str) (c : Nat) (h : c ∈ stripEnds s) : c ∈ s := by
  unfold stripEnds at h
  exact (List.dropWhile_sublist isSpace).subset (mem_dropTrailingWs _ c h)

theorem mem_replaceAmpEnt (s : Str) :
    ∀ c, c ∈ replaceAmpEnt s → c ∈ s ∨ c = 97 ∨ c = 110 ∨ c = 100 := by
  induction s using replaceAmpEnt.induct with
  | case1 rest ih =>
    intro c h
    rw [replaceAmpEnt] at h
    rcases List.mem_cons.mp h with h | h
    · right
      left
      exact h
    · rcases List.mem_cons.mp h with h | h
      · right
        right
        left
        exact h
      · rcases List.mem_cons.mp h with h | h
        · right
          right
          right
          exact h
        · rcases ih c h with h | h
          · left
            simp [List.mem_cons]
            tauto
          · right
            exact h
  | case2 c' rest hne ih =>
    intro c h
    rw [replaceAmpEnt] at h
    · rcases List.mem_cons.mp h with h | h
      · subst h
        exact Or.inl (List.mem_cons_self _ _)
      · rcases ih c h with h | h
        · exact Or.inl (List.mem_cons_of_mem c' h)
        · exact Or.inr h
    · exact hne
  | case3 =>
    intro c h
    rw [replaceAmpEnt] at h
    simp at h

theorem mem_replaceAmp (s : Str) :
    ∀ c, c ∈ replaceAmp s → c ∈ s ∨ c = 97 ∨ c = 110 ∨ c = 100 := by
  induction s using replaceAmp.induct with
  | case1 rest ih =>
    intro c h
    rw [replaceAmp] at h
    rcases List.mem_cons.mp h with h | h
    · right
      left
      exact h
    · rcases List.mem_cons.mp h with h | h
      · right
        right
        left
        exact h
      · rcases List.mem_cons.mp h with h | h
        · right
          right
          right
          exact h
        · rcases ih c h with h | h
          · exact Or.inl (List.mem_cons_of_mem 38 h)
          · right
            exact h
  | case2 c' rest hne ih =>
    intro c h
    rw [replaceAmp] at h
    · rcases List.mem_cons.mp h with h | h
      · subst h
        exact Or.inl (List.mem_cons_self _ _)
      · rcases ih c h with h | h
        · exact Or.inl (List.mem_cons_of_mem c' h)
        · exact Or.inr h
    · exact hne
  | case3 =>
    intro c h
    rw [replaceAmp] at h
    simp at h

theorem replaceAmpEnt_id (s : Str) (h38 : 38 ∉ s) : replaceAmpEnt s = s := by
  induction s using replaceAmpEnt.induct with
  | case1 rest ih => exact absurd (List.mem_cons_self _ _) h38
  | case2 c' rest hne ih =>
    rw [replaceAmpEnt]
    · rw [ih (fun h => h38 (List.mem_cons_of_mem c' h))]
    · exact hne
  | case3 => rfl

theorem replaceAmp_id (s : Str) (h38 : 38 ∉ s) : replaceAmp s = s := by
  induction s using replaceAmp.induct with
  | case1 rest ih => exact absurd (List.mem_cons_self _ _) h38
  | case2 c' rest hne ih =>
    rw [replaceAmp]
    · rw [ih (fun h => h38 (List.mem_cons_of_mem c' h))]
    · exact hne
  | case3 => rfl

theorem mem_stripArticle (s : Str) (c : Nat) (h : c ∈ stripArticle s) : c ∈ s := by
  unfold stripArticle at h
  split at h
  all_goals try split at h
  all_goals first
    | exact h
    | (have hr := (List.dropWhile_sublist isSpace).subset h
       simp [List.mem_cons]
       tauto)

theorem mem_stripYear (s : Str) (c : Nat) (h : c ∈ stripYear s) : c ∈ s := by
  unfold stripYear at h
  split at h
  · rename_i d1 d2 d3 d4 rest heq
    split at h
    · have hr : c ∈ rest := by
        rw [List.mem_reverse] at h
        exact (List.dropWhile_sublist isSpace).subset h
      have hmem : c ∈ (dropTrailingWs s).reverse := by
        rw [heq]
        simp [List.mem_cons]
        tauto
      exact mem_dropTrailingWs s c (List.mem_reverse.mp hmem)
    · exact h
  · exact h

theorem stripYear_id_of_no_paren (s : Str) (h40 : 40 ∉ s) : stripYear s = s := by
  unfold stripYear
  split
  · rename_i d1 d2 d3 d4 rest heq
    exfalso
    apply h40
    have hmem : (40 : Nat) ∈ (dropTrailingWs s).reverse := by
      rw [heq]
      simp [List.mem_cons]
    exact mem_dropTrailingWs s 40 (List.mem_reverse.mp hmem)
  · rfl

theorem pyLower_pyLower (c : Nat) : pyLower (pyLower c) = pyLower c := by
  unfold pyLower
  by_cases h : 65 ≤ c ∧ c ≤ 90
  · simp only [if_pos h]
    rw [if_neg (by omega)]
  · simp only [if_neg h]

theorem map_pyLower_id (l : Str) (h : ∀ c ∈ l, pyLower c = c) : l.map pyLower = l := by
  induction l with
  | nil => rfl
  | cons c cs ih =>
    rw [List.map_cons, h c (List.mem_cons_self c cs),
      ih (fun d hd => h d (List.mem_cons_of_mem c hd))]

theorem normalize_chars (x : Str) :
    ∀ c ∈ normalize_title x, keepChar c = true ∧ pyLower c = c := by
  intro c hc
  have hc' : c = 32 ∨ ∃ w ∈ splitWs (List.filter keepChar
      (stripYear (stripArticle (replaceAmp (replaceAmpEnt
        (stripEnds (x.map pyLower))))))), c ∈ w :=
    mem_joinWords _ c hc
  rcases hc' with h32 | ⟨w, hw, hcw⟩
  · subst h32
    exact ⟨by decide, by decide⟩
  · have hct := ((splitWs_words _ w hw).2 c hcw).2
    have hkeep : keepChar c = true := List.of_mem_filter hct
    have hcu := List.mem_of_mem_filter hct
    have hcu2 := mem_stripYear _ c hcu
    have hcu3 := mem_stripArticle _ c hcu2
    have hcu4 := mem_replaceAmp _ c hcu3
    have hfix : pyLower c = c := by
      rcases hcu4 with h | h
      · rcases mem_replaceAmpEnt _ c h with h' | h'
        · have h'' := mem_stripEnds _ c h'
          obtain ⟨d, -, hd⟩ := List.mem_map.mp h''
          rw [← hd]
          exact pyLower_pyLower d
        · rcases h' with h | h | h
          · subst h
            decide
          · subst h
            decide
          · subst h
            decide
      · rcases h with h | h | h
        · subst h
          decide
        · subst h
          decide
        · subst h
          decide
    exact ⟨hkeep, hfix⟩

theorem no_amp_in_normalize (x : Str) : 38 ∉ normalize_title x :=
  fun h => absurd (normalize_chars x 38 h).1 (by decide)

theorem no_paren_in_normalize (x : Str) : 40 ∉ normalize_title x :=
  fun h => absurd (normalize_chars x 40 h).1 (by decide)

/-- C1 (amended): `normalize_title` applied twice equals `normalize_title`
exactly on the inputs whose normalized form does not begin with a leading
article — every other pipeline stage is the identity on normalized output,
but a second pass strips one more leading article.  (The original claim
fails, e.g. on "a a b" — see the counterexample.) -/
theorem c1_normalize_idem (x : Str)
    (h : stripArticle (normalize_title x) = normalize_title x) :
    normalize_title (normalize_title x) = normalize_title x := by
  have step : normalize_title (normalize_title x) =
      collapseWs (List.filter keepChar (stripYear (stripArticle (replaceAmp
        (replaceAmpEnt (stripEnds ((normalize_title x).map pyLower))))))) := rfl
  rw [step, map_pyLower_id _ (fun c hc => (normalize_chars x c hc).2),
    stripEnds_normalize x,
    replaceAmpEnt_id _ (no_amp_in_normalize x),
    replaceAmp_id _ (no_amp_in_normalize x),
    h,
    stripYear_id_of_no_paren _ (no_paren_in_normalize x),
    List.filter_eq_self.mpr (fun c hc => (normalize_chars x c hc).1),
    collapseWs_normalize x]

/-- Witness for C1 at "The Wire": the normalized form "wire" carries no
leading article, so a second normalization is the identity. -/
theorem c1_normalize_idem_witness :
    stripArticle (normalize_title (str "The Wire")) = normalize_title (str "The Wire") ∧
    normalize_title (normalize_title (str "The Wire")) = normalize_title (str "The Wire") :=
  ⟨by decide, c1_normalize_idem (str "The Wire") (by decide)⟩

/-- C1 counterexample: "a a b" normalizes to "a b", whose second
normalization strips the leading article again, giving "b". -/
theorem c1_counterexample :
    normalize_title (normalize_title (str "a a b")) ≠ normalize_title (str "a a b") := by
  decide
